import Mathlib

/-!
# Verification of the fasteval2 expression-reduction core (src/evaler.rs)

Shallow embedding of the evaluator in `src/evaler.rs`:

* `f64` is modelled as `F64`: an exact rational together with an explicit
  NaN element.  IEEE rounding is abstracted away (operations are exact on
  the rational part); this is documented on each arithmetic operation.
  The claims exercised here only involve values on which IEEE `f64`
  arithmetic is itself exact, or comparison/selection behaviour that does
  not depend on rounding at all.
* The external namespace (`EvalNS`, from `evalns.rs`, which is not part of
  the sources under verification) is modelled from the spec as a stateful
  resolver: a callback from names to optional values threaded through an
  explicit state.
* Vector mutation (`vals.remove(i)`, `ops.remove(i)`, indexing) becomes
  `List.set` / `List.eraseIdx` / `List.getD`.  The Rust code indexes only
  in bounds (indexing out of bounds would panic); `getD` defaults are
  never reached at any call site occurring in `eval`.
-/

namespace Fasteval2

/-- Model of `f64`: an exact rational (`fin`) or NaN (`nan`).
Abstraction notes: IEEE rounding is dropped (rational arithmetic is exact);
there is no `-0.0` and no infinity — operations that would produce an IEEE
infinity (division by zero, overflow, `powf` of `0` to a negative power)
are modelled as `nan`.  No claim below exercises those corners. -/
inductive F64 where
  | nan : F64
  | fin : ℚ → F64
deriving DecidableEq, Repr

/-- IEEE `==` on floats: `nan` compares unequal to everything (itself included). -/
def f64_eq : F64 → F64 → Bool
  | F64.fin a, F64.fin b => decide (a = b)
  | _, _ => false

/-- IEEE `!=` on floats: the negation of `==`; in particular true when either side is `nan`. -/
def f64_ne (a b : F64) : Bool := !(f64_eq a b)

/-- IEEE `<`: false whenever either side is `nan`. -/
def f64_lt : F64 → F64 → Bool
  | F64.fin a, F64.fin b => decide (a < b)
  | _, _ => false

/-- IEEE `<=`: false whenever either side is `nan`. -/
def f64_le : F64 → F64 → Bool
  | F64.fin a, F64.fin b => decide (a ≤ b)
  | _, _ => false

def f64_add : F64 → F64 → F64
  | F64.fin a, F64.fin b => F64.fin (a + b)
  | _, _ => F64.nan

def f64_sub : F64 → F64 → F64
  | F64.fin a, F64.fin b => F64.fin (a - b)
  | _, _ => F64.nan

def f64_mul : F64 → F64 → F64
  | F64.fin a, F64.fin b => F64.fin (a * b)
  | _, _ => F64.nan

/-- Division; `x / 0` is modelled as `nan` (IEEE would give `±∞` for `x ≠ 0`). -/
def f64_div : F64 → F64 → F64
  | F64.fin a, F64.fin b => if b = 0 then F64.nan else F64.fin (a / b)
  | _, _ => F64.nan

/-- Truncation toward zero of a rational. -/
def ratTrunc (q : ℚ) : ℤ := if 0 ≤ q then ⌊q⌋ else -⌊-q⌋

/-- Rust `%` on `f64` (truncating remainder, sign follows the dividend);
`x % 0` is NaN per IEEE. -/
def f64_mod : F64 → F64 → F64
  | F64.fin a, F64.fin b =>
      if b = 0 then F64.nan else F64.fin (a - (ratTrunc (a / b) : ℚ) * b)
  | _, _ => F64.nan

/-- Model of `f64::powf`; exact for integral exponents.  A fractional exponent
(whose exact result is irrational in general) is abstracted as `nan`,
as is `0` raised to a negative power (IEEE: `∞`). -/
def f64_powf : F64 → F64 → F64
  | F64.fin a, F64.fin b =>
      if b.den = 1 then
        if 0 ≤ b.num then F64.fin (a ^ b.num.toNat)
        else if a = 0 then F64.nan
        else F64.fin ((a ^ (-b.num).toNat)⁻¹)
      else F64.nan
  | _, _ => F64.nan

/-- Modelled from the spec: `bool_to_f64` lives in `util.rs` (not under the
verified sources); the spec's semantics table says comparisons yield
"1.0 if the comparison holds, else 0.0 (booleans are encoded as floats)". -/
def bool_to_f64 (b : Bool) : F64 := if b then F64.fin 1 else F64.fin 0

/-- The fourteen binary operators of `grammar::BinaryOp` (names kept). -/
inductive BinaryOp where
  | EPlus | EMinus | EMul | EDiv | EMod | EExp
  | ELT | ELTE | EEQ | ENE | EGTE | EGT
  | EOR | EAND
deriving DecidableEq, Repr

open BinaryOp

/-- Source `BinaryOp::binaryop_eval` from `evaler.rs` lines 145-164, row by row. -/
def binaryop_eval : BinaryOp → F64 → F64 → F64
  | EPlus, left, right => f64_add left right
  | EMinus, left, right => f64_sub left right
  | EMul, left, right => f64_mul left right
  | EDiv, left, right => f64_div left right
  | EMod, left, right => f64_mod left right
  | EExp, left, right => f64_powf left right
  | ELT, left, right => bool_to_f64 (f64_lt left right)
  | ELTE, left, right => bool_to_f64 (f64_le left right)
  | EEQ, left, right => bool_to_f64 (f64_eq left right)
  | ENE, left, right => bool_to_f64 (f64_ne left right)
  | EGTE, left, right => bool_to_f64 (f64_le right left)
  | EGT, left, right => bool_to_f64 (f64_lt right left)
  | EOR, left, right => if f64_ne left (F64.fin 0) then left else right
  | EAND, left, right => if f64_eq left (F64.fin 0) then left else right

/-- Source `grammar::Constant` (a wrapped `f64`). -/
structure Constant where
  val : F64
deriving DecidableEq, Repr

/-- Source `grammar::Value`.  In `evaler.rs` the grammar of this version has only
`EConstant`.  `EVar` is Modelled from the spec: the spec's data model says an
operand "may also be a variable reference ... resolved by delegating to the
external namespace", and the Variable-Name Collector records exactly those
names; the grammar/namespace sources are not under verification. -/
inductive Value where
  | EConstant : Constant → Value
  | EVar : String → Value
deriving DecidableEq, Repr

/-- Source `grammar::ExpressionTok`. -/
inductive ExpressionTok where
  | EValue : Value → ExpressionTok
  | EBinaryOp : BinaryOp → ExpressionTok
deriving DecidableEq, Repr

/-- True on operand tokens, false on operator tokens. -/
def ExpressionTok.isEValue : ExpressionTok → Bool
  | ExpressionTok.EValue _ => true
  | ExpressionTok.EBinaryOp _ => false

/-- Source `grammar::Expression` (a vector of tokens). -/
structure Expression where
  toks : List ExpressionTok
deriving DecidableEq, Repr

/-- Type `error::Error` (not under the verified sources).  Modelled from the spec:
"a single error kind carrying a human-readable message and a context chain:
lower-level errors are wrapped with a descriptive prefix".  The chain is the
list of messages, outermost first. -/
structure Error where
  msgs : List String
deriving DecidableEq, Repr

/-- Source `Error::new`. -/
def Error.new (s : String) : Error := Error.mk [s]

/-- Source `Error::pre`: wrap with a context note. -/
def Error.pre (s : String) (e : Error) : Error := Error.mk (s :: e.msgs)

/-- Modelled from the spec: `EvalNS` (`evalns.rs` is not under the verified
sources).  The spec says the namespace is built from a raw-name callback
(`EvalNS::new(|name| ...)`) and exposes a leaf-resolution operation used once
per operand position.  The callback may mutate external state (the
Variable-Name Collector's accumulating set), so it is modelled with an
explicit state `σ` threaded through every call. -/
structure EvalNS (σ : Type) where
  cb : σ → String → Option F64 × σ

/-- Modelled from the spec: the namespace's leaf resolution (`eval_bubble`).
A constant resolves by bubbling into `Constant::eval` (`evaler.rs` line 140:
`Ok(self.0)`); a variable name is passed to the callback, and a `None` answer
becomes a resolution error ("the namespace cannot supply a value"). -/
def EvalNS.eval_bubble (ns : EvalNS σ) (s : σ) (v : Value) : Except Error F64 × σ :=
  match v with
  | Value.EConstant c => (Except.ok c.val, s)
  | Value.EVar name =>
      match ns.cb s name with
      | (some f, s1) => (Except.ok f, s1)
      | (none, s1) => (Except.error (Error.new ("no value available")), s1)

/-- The split-and-resolve walk of `eval` (`evaler.rs` lines 49-64): enumerate
the tokens with their index `i`, resolve operands at even indices (pushing to
`vals`), collect operators at odd indices (pushing to `ops`), fail on a
parity violation, and wrap a resolution error with an `eval_bubble` context
prefix.  (The Rust prefix also carries the operand's `Debug` rendering; the
model keeps just the `eval_bubble` tag.)  The namespace state is returned in
every case, mirroring the `&mut` namespace surviving an early return. -/
def evalToks (ns : EvalNS σ) :
    List ExpressionTok → ℕ → σ → List F64 → List BinaryOp →
    Except Error (List F64 × List BinaryOp) × σ
  | [], _, s, vals, ops => (Except.ok (vals, ops), s)
  | tok :: rest, i, s, vals, ops =>
    match tok with
    | ExpressionTok.EValue val =>
        if i % 2 = 1 then (Except.error (Error.new ("Found value at odd index")), s)
        else
          match ns.eval_bubble s val with
          | (Except.ok f, s1) => evalToks ns rest (i+1) s1 (vals ++ [f]) ops
          | (Except.error e, s1) => (Except.error (e.pre ("eval_bubble")), s1)
    | ExpressionTok.EBinaryOp bop =>
        if i % 2 = 0 then (Except.error (Error.new ("Found binaryop at even index")), s)
        else evalToks ns rest (i+1) s vals (ops ++ [bop])

/-- The `eval_op` closure (`evaler.rs` lines 81-85): collapse the operator at
index `i`: `vals[i] = op.binaryop_eval(vals[i], vals[i+1])`, then remove
`vals[i+1]` and `ops[i]`.  Rust indexing panics out of bounds; every call
site keeps `i < ops.length` and `i+1 < vals.length`, so the `getD` defaults
are never reached. -/
def eval_op (vals : List F64) (ops : List BinaryOp) (i : ℕ) :
    List F64 × List BinaryOp :=
  let result := binaryop_eval (ops.getD i EPlus) (vals.getD i F64.nan) (vals.getD (i+1) F64.nan)
  ((vals.set i result).eraseIdx (i+1), ops.eraseIdx i)

/-- The countdown body of `rtol` (`evaler.rs` lines 86-94): `i` starts at
`ops.len()` and is decremented; when `ops[i] == op` the index is collapsed
and the scan continues downward without restarting. -/
def rtol_go (op : BinaryOp) : ℕ → List F64 → List BinaryOp → List F64 × List BinaryOp
  | 0, vals, ops => (vals, ops)
  | i+1, vals, ops =>
      if ops.getD i EPlus = op then
        let st := eval_op vals ops i
        rtol_go op i st.1 st.2
      else rtol_go op i vals ops

/-- Source `rtol`: the right-to-left pass for `op`. -/
def rtol (op : BinaryOp) (vals : List F64) (ops : List BinaryOp) :
    List F64 × List BinaryOp :=
  rtol_go op ops.length vals ops

/-- Index of the first occurrence of `op`, scanning from the front — the
inner `for` loop of `ltor` (`evaler.rs` lines 95-108). -/
def scanIdx (op : BinaryOp) : List BinaryOp → Option ℕ
  | [] => none
  | o :: os => if o = op then some 0 else (scanIdx op os).map (· + 1)

/-- The restart loop of `ltor`: on a match collapse it and restart the scan
from index 0 (`continue 'outer`); stop when a full scan finds no match.
Each collapse removes one operator, so `ops.length` steps of fuel always
reach the no-match state (proved in `ltor_go_not_mem` below); the fuel makes
the loop structurally recursive without changing its result. -/
def ltor_go (op : BinaryOp) : ℕ → List F64 → List BinaryOp → List F64 × List BinaryOp
  | 0, vals, ops => (vals, ops)
  | fuel+1, vals, ops =>
      match scanIdx op ops with
      | none => (vals, ops)
      | some i =>
          let st := eval_op vals ops i
          ltor_go op fuel st.1 st.2

/-- Source `ltor`: the left-to-right (restart-on-mutation) pass for `op`. -/
def ltor (op : BinaryOp) (vals : List F64) (ops : List BinaryOp) :
    List F64 × List BinaryOp :=
  ltor_go op ops.length vals ops

/-- The fourteen reduction passes of `eval`, in source order
(`evaler.rs` lines 110-123). -/
def reduceOps (vals : List F64) (ops : List BinaryOp) : List F64 × List BinaryOp :=
  let s1 := rtol EExp vals ops
  let s2 := ltor EMod s1.1 s1.2
  let s3 := ltor EDiv s2.1 s2.2
  let s4 := rtol EMul s3.1 s3.2
  let s5 := ltor EMinus s4.1 s4.2
  let s6 := rtol EPlus s5.1 s5.2
  let s7 := ltor ELT s6.1 s6.2
  let s8 := ltor EGT s7.1 s7.2
  let s9 := ltor ELTE s8.1 s8.2
  let s10 := ltor EGTE s9.1 s9.2
  let s11 := ltor EEQ s10.1 s10.2
  let s12 := ltor ENE s11.1 s11.2
  let s13 := ltor EAND s12.1 s12.2
  ltor EOR s13.1 s13.2

/-- Source `Expression::eval` (`evaler.rs` lines 27-128): odd-length check, the
split-and-resolve walk, the fourteen passes, and the two finalization
checks.  The final `vals[0]` read is in bounds because of the preceding
length check. -/
def eval (e : Expression) (ns : EvalNS σ) (s : σ) : Except Error F64 × σ :=
  if e.toks.length % 2 ≠ 1 then
    (Except.error (Error.new ("Expression len should always be odd")), s)
  else
    match evalToks ns e.toks 0 s [] [] with
    | (Except.error err, s1) => (Except.error err, s1)
    | (Except.ok (vals, ops), s1) =>
        let st := reduceOps vals ops
        if st.2.length ≠ 0 then (Except.error (Error.new ("Unhandled Expression ops")), s1)
        else if st.1.length ≠ 1 then
          (Except.error (Error.new ("More than one final Expression value")), s1)
        else (Except.ok (st.1.getD 0 F64.nan), s1)

/-- The recording namespace stub built inside `var_names`
(`evaler.rs` lines 16-19): the callback inserts every name it is asked for
into the accumulating set and answers `None`. -/
def stubNS : EvalNS (Finset String) :=
  EvalNS.mk (fun set name => (none, insert name set))

/-- Source `Evaler::var_names` (`evaler.rs` lines 13-23): run `eval` against the
recording stub starting from the empty set; the `?` operator propagates an
`eval` error (discarding the set), and on success the set is returned. -/
def var_names (e : Expression) : Except Error (Finset String) :=
  match eval e stubNS ∅ with
  | (Except.ok _, set) => Except.ok set
  | (Except.error err, _) => Except.error err

/-! ## Spec-side definitions

The following definitions are the one refinement exception: they follow the
spec's words (§4.2 step 3) rather than the source, so that the source's
reduction chain can be compared against them (claim C1). -/

/-- Associativity direction of a tier (spec §3: "a per-tier constant"). -/
inductive Dir where
  | rtl | ltr
deriving DecidableEq, Repr

/-- The spec's fixed tier table: "`^` right-to-left, `%` left-to-right,
`/` left-to-right, `*` right-to-left, `-` left-to-right, `+` right-to-left",
then the six comparisons and `&&`, `||` each left-to-right, in this order. -/
def tierOrder : List (BinaryOp × Dir) :=
  [(EExp, Dir.rtl), (EMod, Dir.ltr), (EDiv, Dir.ltr), (EMul, Dir.rtl),
   (EMinus, Dir.ltr), (EPlus, Dir.rtl),
   (ELT, Dir.ltr), (EGT, Dir.ltr), (ELTE, Dir.ltr), (EGTE, Dir.ltr),
   (EEQ, Dir.ltr), (ENE, Dir.ltr), (EAND, Dir.ltr), (EOR, Dir.ltr)]

/-- Spec-side right-to-left pass, written as structural recursion instead of
the source's index countdown: scanning "from the last operator down to the
first" and collapsing matches without restarting is the same as first fully
processing the operator suffix and then, if the head operator matches,
collapsing it against the head of the processed suffix.  The `[]` fallback
inside the match is unreachable whenever `vals.length = ops.length + 1`. -/
def rtlPass (op : BinaryOp) : List F64 → List BinaryOp → List F64 × List BinaryOp
  | v0 :: vs, o0 :: os =>
      let st := rtlPass op vs os
      if o0 = op then
        match st.1 with
        | v1 :: rest => (binaryop_eval o0 v0 v1 :: rest, st.2)
        | [] => (v0 :: st.1, o0 :: st.2)
      else (v0 :: st.1, o0 :: st.2)
  | vals, ops => (vals, ops)

/-- Spec-side single left-to-right scan: walk from the front and collapse the
first matching operator in place; `none` when no operator matches. -/
def ltrScan (op : BinaryOp) : List F64 → List BinaryOp → Option (List F64 × List BinaryOp)
  | v0 :: vs, o0 :: os =>
      if o0 = op then
        match vs with
        | v1 :: rest => some (binaryop_eval o0 v0 v1 :: rest, os)
        | [] => none
      else
        match ltrScan op vs os with
        | some st => some (v0 :: st.1, o0 :: st.2)
        | none => none
  | _, _ => none

/-- Spec-side left-to-right pass: collapse and "restart the scan from the
beginning of the (shrunk) operator sequence" until a full scan finds no
match.  Every collapse removes one operator, so `ops.length` units of fuel
always reach the no-match fixpoint. -/
def ltrPass (op : BinaryOp) : ℕ → List F64 → List BinaryOp → List F64 × List BinaryOp
  | 0, vals, ops => (vals, ops)
  | fuel+1, vals, ops =>
      match ltrScan op vals ops with
      | none => (vals, ops)
      | some st => ltrPass op fuel st.1 st.2

/-- One spec-side tier: dispatch on the tier's direction tag. -/
def runTier (st : List F64 × List BinaryOp) : BinaryOp × Dir → List F64 × List BinaryOp
  | (op, Dir.rtl) => rtlPass op st.1 st.2
  | (op, Dir.ltr) => ltrPass op st.2.length st.1 st.2

/-- Spec-side tier-reduction: fold the fourteen tiers of `tierOrder`. -/
def specReduce (vals : List F64) (ops : List BinaryOp) : List F64 × List BinaryOp :=
  tierOrder.foldl runTier (vals, ops)

/-- One source-side tier, for restating `reduceOps` as a fold. -/
def codeTier (st : List F64 × List BinaryOp) : BinaryOp × Dir → List F64 × List BinaryOp
  | (op, Dir.rtl) => rtol op st.1 st.2
  | (op, Dir.ltr) => ltor op st.1 st.2

/-! ## Helper definitions for the claims about shape and resolution order -/

/-- Odd-length, operand/operator-alternating token lists: the "valid
flattened expression" shape of the spec's data model. -/
def wellShaped : List ExpressionTok → Bool
  | [ExpressionTok.EValue _] => true
  | ExpressionTok.EValue _ :: ExpressionTok.EBinaryOp _ :: rest => wellShaped rest
  | _ => false

/-- Parity check of the split walk, starting at index `i`: operands must sit
at even indices and operators at odd indices. -/
def parityOk : List ExpressionTok → ℕ → Bool
  | [], _ => true
  | ExpressionTok.EValue _ :: rest, i => decide (i % 2 = 0) && parityOk rest (i+1)
  | ExpressionTok.EBinaryOp _ :: rest, i => decide (i % 2 = 1) && parityOk rest (i+1)

/-- The operand tokens of a token list, in order. -/
def operandsOf : List ExpressionTok → List Value
  | [] => []
  | ExpressionTok.EValue v :: rest => v :: operandsOf rest
  | ExpressionTok.EBinaryOp _ :: rest => operandsOf rest

/-- Thread the namespace through the operands left-to-right, stopping at the
first operand whose resolution fails: the namespace state after `eval`'s
split walk. -/
def resolveUpto (ns : EvalNS σ) : List Value → σ → σ
  | [], s => s
  | v :: rest, s =>
      match ns.eval_bubble s v with
      | (Except.ok _, s1) => resolveUpto ns rest s1
      | (Except.error _, s1) => s1

/-- The error of the first failing operand resolution, if any, threading the
namespace state left-to-right. -/
def firstResolveError (ns : EvalNS σ) : List Value → σ → Option Error
  | [], _ => none
  | v :: rest, s =>
      match ns.eval_bubble s v with
      | (Except.ok _, s1) => firstResolveError ns rest s1
      | (Except.error e, _) => some e

/-- Equality of `Except` results is decidable componentwise (needed to let
`decide` evaluate the evaluator on concrete expressions). -/
instance {ε α : Type} [DecidableEq ε] [DecidableEq α] : DecidableEq (Except ε α) :=
  fun x y =>
    match x, y with
    | Except.ok a, Except.ok b =>
        if h : a = b then Decidable.isTrue (by rw [h])
        else Decidable.isFalse (by simp [h])
    | Except.error a, Except.error b =>
        if h : a = b then Decidable.isTrue (by rw [h])
        else Decidable.isFalse (by simp [h])
    | Except.ok _, Except.error _ => Decidable.isFalse (by simp)
    | Except.error _, Except.ok _ => Decidable.isFalse (by simp)

/-- Shorthand: a constant operand token. -/
def num (q : ℚ) : ExpressionTok :=
  ExpressionTok.EValue (Value.EConstant (Constant.mk (F64.fin q)))

/-- Shorthand: a variable operand token. -/
def vr (name : String) : ExpressionTok := ExpressionTok.EValue (Value.EVar name)

/-- Shorthand: an operator token. -/
def btok (b : BinaryOp) : ExpressionTok := ExpressionTok.EBinaryOp b

/-- A namespace whose callback always answers (so every resolution
succeeds): used to exercise the success paths. -/
def totalNS : EvalNS Unit := EvalNS.mk (fun s _ => (some (F64.fin 0), s))

/-! ## Lemmas: a single collapse -/

theorem eval_op_cons (v0 : F64) (vs : List F64) (o0 : BinaryOp) (os : List BinaryOp) (i : ℕ) :
    eval_op (v0 :: vs) (o0 :: os) (i+1) =
      (v0 :: (eval_op vs os i).1, o0 :: (eval_op vs os i).2) := by
  simp [eval_op, List.getD_cons_succ, List.set_cons_succ, List.eraseIdx_cons_succ]

theorem eval_op_zero (v0 v1 : F64) (vs : List F64) (o0 : BinaryOp) (os : List BinaryOp) :
    eval_op (v0 :: v1 :: vs) (o0 :: os) 0 = (binaryop_eval o0 v0 v1 :: vs, os) := by
  simp [eval_op]

theorem eval_op_length_fst (vals : List F64) (ops : List BinaryOp) (i : ℕ)
    (h2 : i + 1 < vals.length) :
    (eval_op vals ops i).1.length + 1 = vals.length := by
  have h : (eval_op vals ops i).1.length = vals.length - 1 := by
    simp [eval_op, List.length_eraseIdx, List.length_set, h2]
  omega

theorem eval_op_length_snd (vals : List F64) (ops : List BinaryOp) (i : ℕ)
    (h1 : i < ops.length) :
    (eval_op vals ops i).2.length + 1 = ops.length := by
  have h : (eval_op vals ops i).2.length = ops.length - 1 := by
    simp [eval_op, List.length_eraseIdx, h1]
  omega

theorem eval_op_sublist_snd (vals : List F64) (ops : List BinaryOp) (i : ℕ) :
    List.Sublist (eval_op vals ops i).2 ops :=
  List.eraseIdx_sublist ops i

theorem drop_eraseIdx_self {α : Type} (l : List α) (i : ℕ) (h : i < l.length) :
    (l.eraseIdx i).drop i = l.drop (i+1) := by
  have key : ∀ (t d : List α), t.length = i → (t ++ d).drop i = d := by
    intro t d ht
    rw [← ht]
    exact List.drop_left t d
  rw [List.eraseIdx_eq_take_drop_succ]
  exact key _ _ (by rw [List.length_take]; exact min_eq_left h.le)

/-! ## Lemmas: the right-to-left pass -/

theorem rtol_go_sublist (op : BinaryOp) (n : ℕ) :
    ∀ (vals : List F64) (ops : List BinaryOp),
    List.Sublist (rtol_go op n vals ops).2 ops := by
  induction n with
  | zero => intro vals ops; simp [rtol_go]
  | succ i ih =>
      intro vals ops
      simp only [rtol_go]
      split
      · exact (ih _ _).trans (eval_op_sublist_snd vals ops i)
      · exact ih vals ops

theorem rtol_go_not_mem (op : BinaryOp) (n : ℕ) :
    ∀ (vals : List F64) (ops : List BinaryOp),
    n ≤ ops.length → op ∉ ops.drop n → op ∉ (rtol_go op n vals ops).2 := by
  induction n with
  | zero => intro vals ops _ h; simpa [rtol_go] using h
  | succ i ih =>
      intro vals ops hle hnd
      simp only [rtol_go]
      split
      · apply ih
        · have := eval_op_length_snd vals ops i (by omega)
          omega
        · have he : (eval_op vals ops i).2 = ops.eraseIdx i := rfl
          rw [he, drop_eraseIdx_self ops i (by omega)]
          exact hnd
      · rename_i hc
        apply ih _ _ (by omega)
        have hlt : i < ops.length := by omega
        rw [List.drop_eq_getElem_cons hlt]
        intro hm
        rcases List.mem_cons.mp hm with he | hm2
        · exact hc (by rw [List.getD_eq_getElem ops EPlus hlt, ← he])
        · exact hnd hm2

theorem rtol_go_length (op : BinaryOp) (n : ℕ) :
    ∀ (vals : List F64) (ops : List BinaryOp),
    n ≤ ops.length → vals.length = ops.length + 1 →
    (rtol_go op n vals ops).1.length = (rtol_go op n vals ops).2.length + 1 := by
  induction n with
  | zero => intro vals ops _ h; simpa [rtol_go] using h
  | succ i ih =>
      intro vals ops hle hlen
      simp only [rtol_go]
      split
      · apply ih
        · have := eval_op_length_snd vals ops i (by omega)
          omega
        · have h1 := eval_op_length_fst vals ops i (by omega)
          have h2 := eval_op_length_snd vals ops i (by omega)
          omega
      · exact ih vals ops (by omega) hlen

theorem rtol_sublist (op : BinaryOp) (vals : List F64) (ops : List BinaryOp) :
    List.Sublist (rtol op vals ops).2 ops :=
  rtol_go_sublist op ops.length vals ops

theorem rtol_not_mem (op : BinaryOp) (vals : List F64) (ops : List BinaryOp) :
    op ∉ (rtol op vals ops).2 :=
  rtol_go_not_mem op ops.length vals ops le_rfl (by simp)

theorem rtol_length (op : BinaryOp) (vals : List F64) (ops : List BinaryOp)
    (h : vals.length = ops.length + 1) :
    (rtol op vals ops).1.length = (rtol op vals ops).2.length + 1 :=
  rtol_go_length op ops.length vals ops le_rfl h

theorem rtol_go_cons (op : BinaryOp) (n : ℕ) :
    ∀ (v0 : F64) (vs : List F64) (o0 : BinaryOp) (os : List BinaryOp),
    rtol_go op (n+1) (v0 :: vs) (o0 :: os) =
      (if o0 = op
       then eval_op (v0 :: (rtol_go op n vs os).1) (o0 :: (rtol_go op n vs os).2) 0
       else (v0 :: (rtol_go op n vs os).1, o0 :: (rtol_go op n vs os).2)) := by
  induction n with
  | zero =>
      intro v0 vs o0 os
      simp [rtol_go, List.getD_cons_zero]
  | succ i ih =>
      intro v0 vs o0 os
      conv_lhs => rw [rtol_go]
      rw [List.getD_cons_succ]
      by_cases hc : os.getD i EPlus = op
      · rw [if_pos hc, eval_op_cons v0 vs o0 os i]
        rw [ih v0 (eval_op vs os i).1 o0 (eval_op vs os i).2]
        conv_rhs => rw [rtol_go]
        rw [if_pos hc]
      · rw [if_neg hc]
        rw [ih v0 vs o0 os]
        conv_rhs => rw [rtol_go]
        rw [if_neg hc]

/-- The spec-side pass `rtlPass` preserves the `values = operators + 1` length relation. -/
theorem rtlPass_length (op : BinaryOp) :
    ∀ (ops : List BinaryOp) (vals : List F64), vals.length = ops.length + 1 →
    (rtlPass op vals ops).1.length = (rtlPass op vals ops).2.length + 1 := by
  intro ops
  induction ops with
  | nil =>
      intro vals h
      cases vals with
      | nil => simp at h
      | cons v0 vs => simpa [rtlPass] using h
  | cons o0 os ih =>
      intro vals h
      cases vals with
      | nil => simp at h
      | cons v0 vs =>
          have hvs : vs.length = os.length + 1 := by
            simpa using h
          have hih := ih vs hvs
          simp only [rtlPass]
          by_cases hc : o0 = op
          · rw [if_pos hc]
            cases hst : (rtlPass op vs os).1 with
            | nil => rw [hst] at hih; simp at hih
            | cons v1 rest =>
                rw [hst] at hih
                simp at hih ⊢
                omega
          · rw [if_neg hc]
            simp
            omega

/-- The source's right-to-left pass coincides with the spec's description of
it, expressed as structural recursion (`rtlPass`), on every state satisfying
the length invariant. -/
theorem rtol_eq_rtlPass (op : BinaryOp) :
    ∀ (ops : List BinaryOp) (vals : List F64), vals.length = ops.length + 1 →
    rtol op vals ops = rtlPass op vals ops := by
  intro ops
  induction ops with
  | nil =>
      intro vals h
      cases vals with
      | nil => simp at h
      | cons v0 vs => simp [rtol, rtol_go, rtlPass]
  | cons o0 os ih =>
      intro vals h
      cases vals with
      | nil => simp at h
      | cons v0 vs =>
          have hvs : vs.length = os.length + 1 := by simpa using h
          have hlen : (o0 :: os).length = os.length + 1 := rfl
          rw [rtol, hlen, rtol_go_cons op os.length v0 vs o0 os]
          have hr : rtol_go op os.length vs os = rtlPass op vs os := ih vs hvs
          rw [hr]
          have hplen := rtlPass_length op os vs hvs
          simp only [rtlPass]
          by_cases hc : o0 = op
          · rw [if_pos hc, if_pos hc]
            cases hst : (rtlPass op vs os).1 with
            | nil => rw [hst] at hplen; simp at hplen
            | cons v1 rest =>
                exact eval_op_zero v0 v1 rest o0 (rtlPass op vs os).2
          · rw [if_neg hc, if_neg hc]

/-! ## Lemmas: the left-to-right pass -/

theorem scanIdx_some (op : BinaryOp) :
    ∀ (ops : List BinaryOp) (i : ℕ), scanIdx op ops = some i →
    i < ops.length ∧ ops.getD i EPlus = op := by
  intro ops
  induction ops with
  | nil => intro i h; simp [scanIdx] at h
  | cons o os ih =>
      intro i h
      simp only [scanIdx] at h
      by_cases hc : o = op
      · rw [if_pos hc] at h
        injection h with h
        subst h
        exact ⟨by simp, by simpa [List.getD_cons_zero] using hc⟩
      · rw [if_neg hc] at h
        cases hs : scanIdx op os with
        | none => rw [hs] at h; simp at h
        | some j =>
            rw [hs] at h
            simp only [Option.map_some'] at h
            injection h with h
            obtain ⟨h1, h2⟩ := ih j hs
            subst h
            exact ⟨by simpa using Nat.succ_lt_succ h1, by simpa [List.getD_cons_succ] using h2⟩

theorem scanIdx_none (op : BinaryOp) :
    ∀ (ops : List BinaryOp), scanIdx op ops = none → op ∉ ops := by
  intro ops
  induction ops with
  | nil => intro _ hm; simp at hm
  | cons o os ih =>
      intro h hm
      simp only [scanIdx] at h
      by_cases hc : o = op
      · rw [if_pos hc] at h; simp at h
      · rw [if_neg hc] at h
        rcases List.mem_cons.mp hm with he | hm2
        · exact hc he.symm
        · exact ih (by simpa using h) hm2

theorem ltor_go_sublist (op : BinaryOp) (fuel : ℕ) :
    ∀ (vals : List F64) (ops : List BinaryOp),
    List.Sublist (ltor_go op fuel vals ops).2 ops := by
  induction fuel with
  | zero => intro vals ops; simp [ltor_go]
  | succ f ih =>
      intro vals ops
      simp only [ltor_go]
      cases hs : scanIdx op ops with
      | none => simp
      | some i => exact (ih _ _).trans (eval_op_sublist_snd vals ops i)

theorem ltor_go_not_mem (op : BinaryOp) (fuel : ℕ) :
    ∀ (vals : List F64) (ops : List BinaryOp),
    ops.length ≤ fuel → op ∉ (ltor_go op fuel vals ops).2 := by
  induction fuel with
  | zero =>
      intro vals ops h
      have : ops = [] := List.eq_nil_of_length_eq_zero (Nat.le_zero.mp h)
      subst this
      simp [ltor_go]
  | succ f ih =>
      intro vals ops h
      simp only [ltor_go]
      cases hs : scanIdx op ops with
      | none => exact scanIdx_none op ops hs
      | some i =>
          apply ih
          obtain ⟨hlt, _⟩ := scanIdx_some op ops i hs
          have := eval_op_length_snd vals ops i hlt
          omega

theorem ltor_go_length (op : BinaryOp) (fuel : ℕ) :
    ∀ (vals : List F64) (ops : List BinaryOp),
    vals.length = ops.length + 1 →
    (ltor_go op fuel vals ops).1.length = (ltor_go op fuel vals ops).2.length + 1 := by
  induction fuel with
  | zero => intro vals ops h; simpa [ltor_go] using h
  | succ f ih =>
      intro vals ops h
      simp only [ltor_go]
      cases hs : scanIdx op ops with
      | none => simpa using h
      | some i =>
          apply ih
          obtain ⟨hlt, _⟩ := scanIdx_some op ops i hs
          have h1 := eval_op_length_fst vals ops i (by omega)
          have h2 := eval_op_length_snd vals ops i hlt
          omega

theorem ltor_sublist (op : BinaryOp) (vals : List F64) (ops : List BinaryOp) :
    List.Sublist (ltor op vals ops).2 ops :=
  ltor_go_sublist op ops.length vals ops

theorem ltor_not_mem (op : BinaryOp) (vals : List F64) (ops : List BinaryOp) :
    op ∉ (ltor op vals ops).2 :=
  ltor_go_not_mem op ops.length vals ops le_rfl

theorem ltor_length (op : BinaryOp) (vals : List F64) (ops : List BinaryOp)
    (h : vals.length = ops.length + 1) :
    (ltor op vals ops).1.length = (ltor op vals ops).2.length + 1 :=
  ltor_go_length op ops.length vals ops h

theorem ltrScan_eq (op : BinaryOp) :
    ∀ (ops : List BinaryOp) (vals : List F64), vals.length = ops.length + 1 →
    ltrScan op vals ops =
      (match scanIdx op ops with
       | none => none
       | some i => some (eval_op vals ops i)) := by
  intro ops
  induction ops with
  | nil =>
      intro vals h
      cases vals with
      | nil => simp at h
      | cons v0 vs => simp [ltrScan, scanIdx]
  | cons o0 os ih =>
      intro vals h
      cases vals with
      | nil => simp at h
      | cons v0 vs =>
          have hvs : vs.length = os.length + 1 := by simpa using h
          cases vs with
          | nil => simp at hvs
          | cons v1 rest =>
              simp only [ltrScan, scanIdx]
              by_cases hc : o0 = op
              · rw [if_pos hc, if_pos hc]
                exact congrArg some (eval_op_zero v0 v1 rest o0 os).symm
              · rw [if_neg hc, if_neg hc]
                rw [ih (v1 :: rest) hvs]
                cases hs : scanIdx op os with
                | none => simp [hs]
                | some j =>
                    simp only [hs, Option.map_some']
                    rw [eval_op_cons v0 (v1 :: rest) o0 os j]

theorem ltor_go_eq_ltrPass (op : BinaryOp) (fuel : ℕ) :
    ∀ (vals : List F64) (ops : List BinaryOp), vals.length = ops.length + 1 →
    ltor_go op fuel vals ops = ltrPass op fuel vals ops := by
  induction fuel with
  | zero => intro vals ops _; rfl
  | succ f ih =>
      intro vals ops h
      simp only [ltor_go, ltrPass]
      rw [ltrScan_eq op ops vals h]
      cases hs : scanIdx op ops with
      | none => simp [hs]
      | some i =>
          simp only [hs]
          apply ih
          obtain ⟨hlt, _⟩ := scanIdx_some op ops i hs
          have h1 := eval_op_length_fst vals ops i (by omega)
          have h2 := eval_op_length_snd vals ops i hlt
          omega

/-! ## Lemmas: the fourteen-tier chain -/

theorem reduceOps_eq_foldl (vals : List F64) (ops : List BinaryOp) :
    reduceOps vals ops = tierOrder.foldl codeTier (vals, ops) := by
  simp only [reduceOps, tierOrder, List.foldl_cons, List.foldl_nil, codeTier]

theorem codeTier_eq_runTier (st : List F64 × List BinaryOp) (t : BinaryOp × Dir)
    (h : st.1.length = st.2.length + 1) : codeTier st t = runTier st t := by
  obtain ⟨op, d⟩ := t
  cases d with
  | rtl =>
      simp only [codeTier, runTier]
      exact rtol_eq_rtlPass op st.2 st.1 h
  | ltr =>
      simp only [codeTier, runTier]
      exact ltor_go_eq_ltrPass op st.2.length st.1 st.2 h

theorem codeTier_length (st : List F64 × List BinaryOp) (t : BinaryOp × Dir)
    (h : st.1.length = st.2.length + 1) :
    (codeTier st t).1.length = (codeTier st t).2.length + 1 := by
  obtain ⟨op, d⟩ := t
  cases d with
  | rtl => exact rtol_length op st.1 st.2 h
  | ltr => exact ltor_length op st.1 st.2 h

theorem codeTier_sublist (st : List F64 × List BinaryOp) (t : BinaryOp × Dir) :
    List.Sublist (codeTier st t).2 st.2 := by
  obtain ⟨op, d⟩ := t
  cases d with
  | rtl => exact rtol_sublist op st.1 st.2
  | ltr => exact ltor_sublist op st.1 st.2

theorem codeTier_not_mem (st : List F64 × List BinaryOp) (op : BinaryOp) (d : Dir) :
    op ∉ (codeTier st (op, d)).2 := by
  cases d with
  | rtl => exact rtol_not_mem op st.1 st.2
  | ltr => exact ltor_not_mem op st.1 st.2

theorem foldTiers_eq :
    ∀ (l : List (BinaryOp × Dir)) (st : List F64 × List BinaryOp),
    st.1.length = st.2.length + 1 →
    l.foldl codeTier st = l.foldl runTier st := by
  intro l
  induction l with
  | nil => intro st _; rfl
  | cons t ts ih =>
      intro st h
      rw [List.foldl_cons, List.foldl_cons]
      rw [ih (codeTier st t) (codeTier_length st t h)]
      rw [codeTier_eq_runTier st t h]

theorem foldTiers_length :
    ∀ (l : List (BinaryOp × Dir)) (st : List F64 × List BinaryOp),
    st.1.length = st.2.length + 1 →
    (l.foldl codeTier st).1.length = (l.foldl codeTier st).2.length + 1 := by
  intro l
  induction l with
  | nil => intro st h; exact h
  | cons t ts ih =>
      intro st h
      rw [List.foldl_cons]
      exact ih (codeTier st t) (codeTier_length st t h)

theorem foldTiers_not_mem :
    ∀ (l : List (BinaryOp × Dir)) (st : List F64 × List BinaryOp) (op : BinaryOp),
    ((∃ d, (op, d) ∈ l) ∨ op ∉ st.2) → op ∉ (l.foldl codeTier st).2 := by
  intro l
  induction l with
  | nil =>
      intro st op h
      rcases h with ⟨d, hd⟩ | h
      · simp at hd
      · exact h
  | cons t ts ih =>
      intro st op h
      rw [List.foldl_cons]
      apply ih
      rcases h with ⟨d, hd⟩ | h
      · rcases List.mem_cons.mp hd with he | hm
        · right
          rw [← he]
          exact codeTier_not_mem st op d
        · left; exact ⟨d, hm⟩
      · right
        intro hm
        exact h ((codeTier_sublist st t).mem hm)

/-- After the fourteen passes no operator is left: every `BinaryOp`
constructor has a tier in `tierOrder`, its own pass removes every occurrence
of it, and later passes only delete operators. -/
theorem reduceOps_ops_nil (vals : List F64) (ops : List BinaryOp) :
    (reduceOps vals ops).2 = [] := by
  rw [reduceOps_eq_foldl, List.eq_nil_iff_forall_not_mem]
  intro b
  apply foldTiers_not_mem tierOrder (vals, ops) b
  left
  cases b with
  | EPlus => exact ⟨Dir.rtl, by simp [tierOrder]⟩
  | EMinus => exact ⟨Dir.ltr, by simp [tierOrder]⟩
  | EMul => exact ⟨Dir.rtl, by simp [tierOrder]⟩
  | EDiv => exact ⟨Dir.ltr, by simp [tierOrder]⟩
  | EMod => exact ⟨Dir.ltr, by simp [tierOrder]⟩
  | EExp => exact ⟨Dir.rtl, by simp [tierOrder]⟩
  | ELT => exact ⟨Dir.ltr, by simp [tierOrder]⟩
  | ELTE => exact ⟨Dir.ltr, by simp [tierOrder]⟩
  | EEQ => exact ⟨Dir.ltr, by simp [tierOrder]⟩
  | ENE => exact ⟨Dir.ltr, by simp [tierOrder]⟩
  | EGTE => exact ⟨Dir.ltr, by simp [tierOrder]⟩
  | EGT => exact ⟨Dir.ltr, by simp [tierOrder]⟩
  | EOR => exact ⟨Dir.ltr, by simp [tierOrder]⟩
  | EAND => exact ⟨Dir.ltr, by simp [tierOrder]⟩

/-- The fourteen passes preserve the length relation; with
`reduceOps_ops_nil` exactly one value is left. -/
theorem reduceOps_length (vals : List F64) (ops : List BinaryOp)
    (h : vals.length = ops.length + 1) :
    (reduceOps vals ops).1.length = 1 := by
  have h1 := foldTiers_length tierOrder (vals, ops) h
  rw [← reduceOps_eq_foldl] at h1
  rw [reduceOps_ops_nil] at h1
  simpa using h1

/-! ## Lemmas: the split-and-resolve walk -/

theorem wellShaped_length_odd :
    ∀ (toks : List ExpressionTok), wellShaped toks = true → toks.length % 2 = 1
  | [ExpressionTok.EValue _], _ => rfl
  | ExpressionTok.EValue _ :: ExpressionTok.EBinaryOp _ :: rest, h => by
      have hr := wellShaped_length_odd rest (by simpa [wellShaped] using h)
      simp only [List.length_cons]
      omega
  | [], h => by simp [wellShaped] at h
  | [ExpressionTok.EBinaryOp _], h => by simp [wellShaped] at h
  | ExpressionTok.EValue _ :: ExpressionTok.EValue _ :: _, h => by
      simp [wellShaped] at h
  | ExpressionTok.EBinaryOp _ :: _ :: _, h => by simp [wellShaped] at h

theorem evalToks_ok {σ : Type} (ns : EvalNS σ)
    (hok : ∀ (s : σ) (v : Value), ((ns.eval_bubble s v).1).isOk = true) :
    ∀ (toks : List ExpressionTok), wellShaped toks = true →
    ∀ (i : ℕ), i % 2 = 0 → ∀ (s : σ) (vals : List F64) (ops : List BinaryOp),
    ∃ vs2 ops2 s2,
      evalToks ns toks i s vals ops = (Except.ok (vals ++ vs2, ops ++ ops2), s2) ∧
      vs2.length = ops2.length + 1
  | [ExpressionTok.EValue v], _, i, hi, s, vals, ops => by
      simp only [evalToks]
      rw [if_neg (by omega)]
      cases hb : ns.eval_bubble s v with
      | mk r s1 =>
          cases r with
          | error e => have := hok s v; rw [hb] at this; simp [Except.isOk, Except.toBool] at this
          | ok f =>
              refine ⟨[f], [], s1, ?_, by simp⟩
              simp [evalToks]
  | ExpressionTok.EValue v :: ExpressionTok.EBinaryOp b :: rest, h, i, hi, s, vals, ops => by
      have hrest : wellShaped rest = true := by simpa [wellShaped] using h
      simp only [evalToks]
      rw [if_neg (by omega)]
      cases hb : ns.eval_bubble s v with
      | mk r s1 =>
          cases r with
          | error e => have := hok s v; rw [hb] at this; simp [Except.isOk, Except.toBool] at this
          | ok f =>
              simp only [evalToks]
              rw [if_neg (by omega)]
              obtain ⟨vs2, ops2, s2, heq, hlen⟩ :=
                evalToks_ok ns hok rest hrest (i+2) (by omega) s1 (vals ++ [f]) (ops ++ [b])
              refine ⟨[f] ++ vs2, [b] ++ ops2, s2, ?_, by simp [hlen]⟩
              rw [heq]
              simp
  | [], h, _, _, _, _, _ => by simp [wellShaped] at h
  | [ExpressionTok.EBinaryOp _], h, _, _, _, _, _ => by simp [wellShaped] at h
  | ExpressionTok.EValue _ :: ExpressionTok.EValue _ :: _, h, _, _, _, _, _ => by
      simp [wellShaped] at h
  | ExpressionTok.EBinaryOp _ :: _ :: _, h, _, _, _, _, _ => by simp [wellShaped] at h

theorem evalToks_state {σ : Type} (ns : EvalNS σ) :
    ∀ (toks : List ExpressionTok), wellShaped toks = true →
    ∀ (i : ℕ), i % 2 = 0 → ∀ (s : σ) (vals : List F64) (ops : List BinaryOp),
    (evalToks ns toks i s vals ops).2 = resolveUpto ns (operandsOf toks) s
  | [ExpressionTok.EValue v], _, i, hi, s, vals, ops => by
      simp only [evalToks, operandsOf, resolveUpto]
      rw [if_neg (by omega)]
      cases hb : ns.eval_bubble s v with
      | mk r s1 =>
          cases r with
          | error e => simp
          | ok f => simp [evalToks]
  | ExpressionTok.EValue v :: ExpressionTok.EBinaryOp b :: rest, h, i, hi, s, vals, ops => by
      have hrest : wellShaped rest = true := by simpa [wellShaped] using h
      simp only [evalToks, operandsOf, resolveUpto]
      rw [if_neg (by omega)]
      cases hb : ns.eval_bubble s v with
      | mk r s1 =>
          cases r with
          | error e => simp
          | ok f =>
              simp only [evalToks]
              rw [if_neg (by omega)]
              exact evalToks_state ns rest hrest (i+2) (by omega) s1 (vals ++ [f]) (ops ++ [b])
  | [], h, _, _, _, _, _ => by simp [wellShaped] at h
  | [ExpressionTok.EBinaryOp _], h, _, _, _, _, _ => by simp [wellShaped] at h
  | ExpressionTok.EValue _ :: ExpressionTok.EValue _ :: _, h, _, _, _, _, _ => by
      simp [wellShaped] at h
  | ExpressionTok.EBinaryOp _ :: _ :: _, h, _, _, _, _, _ => by simp [wellShaped] at h

theorem evalToks_err {σ : Type} (ns : EvalNS σ) :
    ∀ (toks : List ExpressionTok), wellShaped toks = true →
    ∀ (i : ℕ), i % 2 = 0 → ∀ (s : σ) (vals : List F64) (ops : List BinaryOp) (e : Error),
    firstResolveError ns (operandsOf toks) s = some e →
    (evalToks ns toks i s vals ops).1 = Except.error (Error.pre ("eval_bubble") e)
  | [ExpressionTok.EValue v], _, i, hi, s, vals, ops, e => by
      intro hfe
      simp only [operandsOf, firstResolveError] at hfe
      simp only [evalToks]
      rw [if_neg (by omega)]
      cases hb : ns.eval_bubble s v with
      | mk r s1 =>
          rw [hb] at hfe
          cases r with
          | error e0 =>
              simp at hfe
              subst hfe
              simp [Error.pre]
          | ok f => simp [firstResolveError] at hfe
  | ExpressionTok.EValue v :: ExpressionTok.EBinaryOp b :: rest, h, i, hi, s, vals, ops, e => by
      intro hfe
      have hrest : wellShaped rest = true := by simpa [wellShaped] using h
      simp only [operandsOf, firstResolveError] at hfe
      simp only [evalToks]
      rw [if_neg (by omega)]
      cases hb : ns.eval_bubble s v with
      | mk r s1 =>
          rw [hb] at hfe
          cases r with
          | error e0 =>
              simp at hfe
              subst hfe
              simp [Error.pre]
          | ok f =>
              simp only [evalToks]
              rw [if_neg (by omega)]
              exact evalToks_err ns rest hrest (i+2) (by omega) s1 (vals ++ [f])
                (ops ++ [b]) e hfe
  | [], _, _, _, s, _, _, e => by intro hfe; simp [operandsOf, firstResolveError] at hfe
  | [ExpressionTok.EBinaryOp _], h, _, _, _, _, _, _ => by
      intro _; simp [wellShaped] at h
  | ExpressionTok.EValue _ :: ExpressionTok.EValue _ :: _, h, _, _, _, _, _, _ => by
      intro _; simp [wellShaped] at h
  | ExpressionTok.EBinaryOp _ :: _ :: _, h, _, _, _, _, _, _ => by
      intro _; simp [wellShaped] at h

/-! ## Lemmas: parity violations -/

theorem evalToks_parity_bad {σ : Type} (ns : EvalNS σ) :
    ∀ (toks : List ExpressionTok) (i : ℕ) (s : σ) (vals : List F64) (ops : List BinaryOp),
    parityOk toks i = false → ((evalToks ns toks i s vals ops).1).isOk = false
  | [], i, s, vals, ops => by intro h; simp [parityOk] at h
  | ExpressionTok.EValue v :: rest, i, s, vals, ops => by
      intro h
      rcases Nat.mod_two_eq_zero_or_one i with hi | hi
      · have hrest : parityOk rest (i+1) = false := by
          simpa [parityOk, hi] using h
        simp only [evalToks]
        rw [if_neg (by omega)]
        cases hb : ns.eval_bubble s v with
        | mk r s1 =>
            cases r with
            | error e => simp [Except.isOk, Except.toBool]
            | ok f => exact evalToks_parity_bad ns rest (i+1) s1 (vals ++ [f]) ops hrest
      · simp only [evalToks]
        rw [if_pos (by omega)]
        simp [Except.isOk, Except.toBool]
  | ExpressionTok.EBinaryOp b :: rest, i, s, vals, ops => by
      intro h
      rcases Nat.mod_two_eq_zero_or_one i with hi | hi
      · simp only [evalToks]
        rw [if_pos (by omega)]
        simp [Except.isOk, Except.toBool]
      · have hrest : parityOk rest (i+1) = false := by
          simpa [parityOk, hi] using h
        simp only [evalToks]
        rw [if_neg (by omega)]
        exact evalToks_parity_bad ns rest (i+1) s vals (ops ++ [b]) hrest

theorem evalToks_parity_structural {σ : Type} (ns : EvalNS σ)
    (hok : ∀ (s : σ) (v : Value), ((ns.eval_bubble s v).1).isOk = true) :
    ∀ (toks : List ExpressionTok) (i : ℕ) (s : σ) (vals : List F64) (ops : List BinaryOp),
    parityOk toks i = false →
    (evalToks ns toks i s vals ops).1 = Except.error (Error.new ("Found value at odd index")) ∨
    (evalToks ns toks i s vals ops).1 = Except.error (Error.new ("Found binaryop at even index"))
  | [], i, s, vals, ops => by intro h; simp [parityOk] at h
  | ExpressionTok.EValue v :: rest, i, s, vals, ops => by
      intro h
      rcases Nat.mod_two_eq_zero_or_one i with hi | hi
      · have hrest : parityOk rest (i+1) = false := by
          simpa [parityOk, hi] using h
        simp only [evalToks]
        rw [if_neg (by omega)]
        cases hb : ns.eval_bubble s v with
        | mk r s1 =>
            cases r with
            | error e =>
                have := hok s v; rw [hb] at this; simp [Except.isOk, Except.toBool] at this
            | ok f =>
                exact evalToks_parity_structural ns hok rest (i+1) s1 (vals ++ [f]) ops hrest
      · simp only [evalToks]
        rw [if_pos (by omega)]
        left; rfl
  | ExpressionTok.EBinaryOp b :: rest, i, s, vals, ops => by
      intro h
      rcases Nat.mod_two_eq_zero_or_one i with hi | hi
      · simp only [evalToks]
        rw [if_pos (by omega)]
        right; rfl
      · have hrest : parityOk rest (i+1) = false := by
          simpa [parityOk, hi] using h
        simp only [evalToks]
        rw [if_neg (by omega)]
        exact evalToks_parity_structural ns hok rest (i+1) s vals (ops ++ [b]) hrest

/-- Failure of the parity check (`parityOk toks i = false`) states exactly that some operand token sits at
a position of odd parity or some operator token at a position of even parity
(positions counted from start index `i`). -/
theorem parityOk_false_iff :
    ∀ (toks : List ExpressionTok) (i : ℕ),
    parityOk toks i = false ↔
      ∃ j, j < toks.length ∧
        (((i + j) % 2 = 1 ∧ (toks.getD j (ExpressionTok.EBinaryOp EPlus)).isEValue = true) ∨
         ((i + j) % 2 = 0 ∧
           (toks.getD j (ExpressionTok.EValue (Value.EConstant (Constant.mk F64.nan)))).isEValue
             = false))
  | [], i => by
      constructor
      · intro h; simp [parityOk] at h
      · rintro ⟨j, hj, _⟩; simp at hj
  | ExpressionTok.EValue v :: rest, i => by
      have ih := parityOk_false_iff rest (i+1)
      constructor
      · intro h
        rcases Nat.mod_two_eq_zero_or_one i with hi | hi
        · have hrest : parityOk rest (i+1) = false := by
            simpa [parityOk, hi] using h
          obtain ⟨k, hk, hviol⟩ := ih.mp hrest
          refine ⟨k+1, by simpa using Nat.succ_lt_succ hk, ?_⟩
          have e1 : i + (k+1) = (i+1) + k := by omega
          rw [e1]
          simpa [List.getD_cons_succ] using hviol
        · exact ⟨0, by simp, Or.inl ⟨by simpa using hi, by simp [ExpressionTok.isEValue]⟩⟩
      · rintro ⟨j, hj, hviol⟩
        cases j with
        | zero =>
            rcases hviol with ⟨hodd, _⟩ | ⟨heven, hfalse⟩
            · have hi : i % 2 = 1 := by simpa using hodd
              simp [parityOk, hi]
            · simp [ExpressionTok.isEValue] at hfalse
        | succ k =>
            have hk : k < rest.length := by simpa using hj
            have e1 : i + (k+1) = (i+1) + k := by omega
            rw [e1] at hviol
            have hrest : parityOk rest (i+1) = false := by
              apply ih.mpr
              exact ⟨k, hk, by simpa [List.getD_cons_succ] using hviol⟩
            simp [parityOk, hrest]
  | ExpressionTok.EBinaryOp b :: rest, i => by
      have ih := parityOk_false_iff rest (i+1)
      constructor
      · intro h
        rcases Nat.mod_two_eq_zero_or_one i with hi | hi
        · exact ⟨0, by simp, Or.inr ⟨by simpa using hi, by simp [ExpressionTok.isEValue]⟩⟩
        · have hrest : parityOk rest (i+1) = false := by
            simpa [parityOk, hi] using h
          obtain ⟨k, hk, hviol⟩ := ih.mp hrest
          refine ⟨k+1, by simpa using Nat.succ_lt_succ hk, ?_⟩
          have e1 : i + (k+1) = (i+1) + k := by omega
          rw [e1]
          simpa [List.getD_cons_succ] using hviol
      · rintro ⟨j, hj, hviol⟩
        cases j with
        | zero =>
            rcases hviol with ⟨hodd, htrue⟩ | ⟨heven, _⟩
            · simp [ExpressionTok.isEValue] at htrue
            · have hi : i % 2 = 0 := by simpa using heven
              simp [parityOk, hi]
        | succ k =>
            have hk : k < rest.length := by simpa using hj
            have e1 : i + (k+1) = (i+1) + k := by omega
            rw [e1] at hviol
            have hrest : parityOk rest (i+1) = false := by
              apply ih.mpr
              exact ⟨k, hk, by simpa [List.getD_cons_succ] using hviol⟩
            simp [parityOk, hrest]

/-! ## Lemmas: state threading stops at the first failure -/

theorem resolveUpto_stop {σ : Type} (ns : EvalNS σ) :
    ∀ (vs : List Value) (s : σ) (e : Error), firstResolveError ns vs s = some e →
    ∀ (extra : List Value), resolveUpto ns (vs ++ extra) s = resolveUpto ns vs s
  | [], s, e => by intro h; simp [firstResolveError] at h
  | v :: rest, s, e => by
      intro h extra
      simp only [firstResolveError] at h
      simp only [List.cons_append, resolveUpto]
      cases hb : ns.eval_bubble s v with
      | mk r s1 =>
          rw [hb] at h
          cases r with
          | error e0 => rfl
          | ok f => exact resolveUpto_stop ns rest s1 e h extra

/-! ## The claims -/

/-- C1: for every reduction state satisfying the length invariant, the
source's fourteen chained passes (`reduceOps`, lines 110-123 of
`evaler.rs`) coincide with the spec's table-driven reduction
(`specReduce`): the tiers run in exactly the order and directions of
`tierOrder` — `^` right-to-left, then `%`, `/` left-to-right, `*`
right-to-left, `-` left-to-right, `+` right-to-left, then the six
comparisons and `&&`, `||` left-to-right — where a right-to-left pass scans
downward collapsing in place without restarting (`rtlPass`) and a
left-to-right pass restarts from index 0 after every collapse
(`ltrPass`). -/
theorem c1_fourteen_tier_order (vals : List F64) (ops : List BinaryOp)
    (h : vals.length = ops.length + 1) :
    reduceOps vals ops = specReduce vals ops := by
  rw [reduceOps_eq_foldl, specReduce]
  exact foldTiers_eq tierOrder (vals, ops) h

theorem c1_witness :
    reduceOps [F64.fin 1, F64.fin 2] [EPlus] = specReduce [F64.fin 1, F64.fin 2] [EPlus] :=
  c1_fourteen_tier_order [F64.fin 1, F64.fin 2] [EPlus] (by decide)

/-- C2: `||` returns the left operand when it is nonzero and the right
operand otherwise; `&&` returns the left operand when it is zero and the
right operand otherwise — operand values, never a 0/1 boolean; in
particular `0 || 5 = 5`, `3 || 5 = 3`, `0 && 5 = 0`, `3 && 5 = 5`. -/
theorem c2_value_returning_and_or :
    (∀ (left right : F64),
        binaryop_eval EOR left right = (if left ≠ F64.fin 0 then left else right) ∧
        binaryop_eval EAND left right = (if left = F64.fin 0 then left else right)) ∧
    binaryop_eval EOR (F64.fin 0) (F64.fin 5) = F64.fin 5 ∧
    binaryop_eval EOR (F64.fin 3) (F64.fin 5) = F64.fin 3 ∧
    binaryop_eval EAND (F64.fin 0) (F64.fin 5) = F64.fin 0 ∧
    binaryop_eval EAND (F64.fin 3) (F64.fin 5) = F64.fin 5 := by
  refine ⟨?_, by decide, by decide, by decide, by decide⟩
  intro left right
  constructor
  · cases left with
    | nan => simp [binaryop_eval, f64_ne, f64_eq]
    | fin q => by_cases hq : q = 0 <;> simp [binaryop_eval, f64_ne, f64_eq, hq]
  · cases left with
    | nan => simp [binaryop_eval, f64_eq]
    | fin q => by_cases hq : q = 0 <;> simp [binaryop_eval, f64_eq, hq]

/-- C3: on a well-shaped token list all of whose operand resolutions
succeed, the split phase yields `values.length = operators.length + 1`,
every in-bounds collapse preserves that relation, and after the fourteen
passes the operators are empty and exactly one value remains, which `eval`
returns as `Ok` — neither finalization error branch is reachable. -/
theorem c3_reduction_invariant {σ : Type} (ns : EvalNS σ) (e : Expression) (s : σ)
    (hshape : wellShaped e.toks = true)
    (hok : ∀ (s1 : σ) (v : Value), ((ns.eval_bubble s1 v).1).isOk = true) :
    (∃ vals ops s1,
        evalToks ns e.toks 0 s [] [] = (Except.ok (vals, ops), s1) ∧
        vals.length = ops.length + 1 ∧
        (reduceOps vals ops).2 = [] ∧
        (reduceOps vals ops).1.length = 1 ∧
        (eval e ns s).1 = Except.ok ((reduceOps vals ops).1.getD 0 F64.nan)) ∧
    (∀ (vals2 : List F64) (ops2 : List BinaryOp) (i : ℕ),
        i < ops2.length → vals2.length = ops2.length + 1 →
        (eval_op vals2 ops2 i).1.length = (eval_op vals2 ops2 i).2.length + 1) := by
  constructor
  · obtain ⟨vs2, ops2, s2, heq, hlen⟩ := evalToks_ok ns hok e.toks hshape 0 rfl s [] []
    simp only [List.nil_append] at heq
    have hnil := reduceOps_ops_nil vs2 ops2
    have hone := reduceOps_length vs2 ops2 hlen
    refine ⟨vs2, ops2, s2, heq, hlen, hnil, hone, ?_⟩
    have hodd := wellShaped_length_odd e.toks hshape
    simp only [eval]
    rw [if_neg (by omega)]
    rw [heq]
    dsimp only
    rw [if_neg (by simp [hnil]), if_neg (by simp [hone])]
  · intro vals2 ops2 i hi hlen2
    have h1 := eval_op_length_fst vals2 ops2 i (by omega)
    have h2 := eval_op_length_snd vals2 ops2 i hi
    omega

theorem c3_witness :
    (∃ vals ops s1,
        evalToks totalNS [num 1, btok EPlus, num 2] 0 () [] []
          = (Except.ok (vals, ops), s1) ∧
        vals.length = ops.length + 1 ∧
        (reduceOps vals ops).2 = [] ∧
        (reduceOps vals ops).1.length = 1 ∧
        (eval (Expression.mk [num 1, btok EPlus, num 2]) totalNS ()).1
          = Except.ok ((reduceOps vals ops).1.getD 0 F64.nan)) ∧
    (∀ (vals2 : List F64) (ops2 : List BinaryOp) (i : ℕ),
        i < ops2.length → vals2.length = ops2.length + 1 →
        (eval_op vals2 ops2 i).1.length = (eval_op vals2 ops2 i).2.length + 1) :=
  c3_reduction_invariant totalNS (Expression.mk [num 1, btok EPlus, num 2]) ()
    (by decide) (fun s1 v => by cases v <;> rfl)

set_option maxRecDepth 8000 in
/-- C4: exponentiation groups right-to-left while subtraction and division
group left-to-right: `2 ^ 3 ^ 4` evaluates to `2 ^ (3 ^ 4)` (not `4096`),
`6 - 5 - 4 - 3` evaluates to `-6` = `((6-5)-4)-3`, and `6 / 5 / 4 / 3`
evaluates to `1/10` = `((6/5)/4)/3` (exact rationals; the `f64` run agrees
up to IEEE rounding of the division chain). -/
theorem c4_associativity_examples :
    (eval (Expression.mk [num 2, btok EExp, num 3, btok EExp, num 4]) stubNS ∅).1
      = Except.ok (F64.fin ((2:ℚ) ^ ((3:ℕ) ^ (4:ℕ)))) ∧
    (eval (Expression.mk [num 2, btok EExp, num 3, btok EExp, num 4]) stubNS ∅).1
      ≠ Except.ok (F64.fin 4096) ∧
    (eval (Expression.mk
        [num 6, btok EMinus, num 5, btok EMinus, num 4, btok EMinus, num 3]) stubNS ∅).1
      = Except.ok (F64.fin (-6)) ∧
    (eval (Expression.mk
        [num 6, btok EDiv, num 5, btok EDiv, num 4, btok EDiv, num 3]) stubNS ∅).1
      = Except.ok (F64.fin (1/10)) ∧
    (-6 : ℚ) = ((6 - 5) - 4) - 3 ∧ (1/10 : ℚ) = ((6/5)/4)/3 := by
  refine ⟨?_, ?_, ?_⟩
  · with_unfolding_all rfl
  · with_unfolding_all decide
  · with_unfolding_all decide

/-- C5 counterexample: on `x + 1` the recording stub makes the engine fail,
and `var_names` then returns that error — not the accumulated set `{x}` as
the claim states. -/
theorem c5_counterexample :
    var_names (Expression.mk [vr ("x"), btok EPlus, num 1])
      = Except.error (Error.pre ("eval_bubble") (Error.new ("no value available"))) ∧
    (eval (Expression.mk [vr ("x"), btok EPlus, num 1]) stubNS ∅).2 = (insert ("x") (∅ : Finset String)) ∧
    var_names (Expression.mk [vr ("x"), btok EPlus, num 1])
      ≠ Except.ok ((insert ("x") (∅ : Finset String)) : Finset String) := by
  with_unfolding_all decide

/-- C5 (amended): `var_names` runs `eval` against the recording stub and
returns the accumulated set when the engine succeeds; when the engine
reports an error, that error is propagated instead of the set (the `?` in
`var_names` discards the set).  On an expression with no variable operands
it returns the empty set. -/
theorem c5_amended_behaviour :
    (∀ (e : Expression) (f : F64) (s : Finset String),
        eval e stubNS ∅ = (Except.ok f, s) → var_names e = Except.ok s) ∧
    (∀ (e : Expression) (err : Error) (s : Finset String),
        eval e stubNS ∅ = (Except.error err, s) → var_names e = Except.error err) ∧
    var_names (Expression.mk
        [num (617/50), btok EPlus, num (4321/100), btok EPlus, num (1111/100)])
      = Except.ok (∅ : Finset String) := by
  refine ⟨?_, ?_, by with_unfolding_all decide⟩
  · intro e f s h; simp [var_names, h]
  · intro e err s h; simp [var_names, h]

theorem c5_witness :
    var_names (Expression.mk [num 1]) = Except.ok (∅ : Finset String) ∧
    var_names (Expression.mk [vr ("x")])
      = Except.error (Error.pre ("eval_bubble") (Error.new ("no value available"))) :=
  ⟨c5_amended_behaviour.1 (Expression.mk [num 1]) (F64.fin 1) ∅ (by decide),
   c5_amended_behaviour.2.1 (Expression.mk [vr ("x")])
     (Error.pre ("eval_bubble") (Error.new ("no value available"))) (insert ("x") (∅ : Finset String)) (by decide)⟩

/-- C6 counterexample: the token list `[x, 2, 3]` has an operand token at
odd index 1, yet with the recording stub `eval` fails with the *resolution*
error of operand 0 (wrapped with the `eval_bubble` context), not with any
structural error — so "fails with a structural error whenever an operand
token appears at an odd index" is false as stated. -/
theorem c6_counterexample :
    parityOk [vr ("x"), num 2, num 3] 0 = false ∧
    ([vr ("x"), num 2, num 3] : List ExpressionTok).length % 2 = 1 ∧
    (eval (Expression.mk [vr ("x"), num 2, num 3]) stubNS ∅).1
      = Except.error (Error.pre ("eval_bubble") (Error.new ("no value available"))) ∧
    Error.pre ("eval_bubble") (Error.new ("no value available"))
      ≠ Error.new ("Found value at odd index") ∧
    Error.pre ("eval_bubble") (Error.new ("no value available"))
      ≠ Error.new ("Found binaryop at even index") ∧
    Error.pre ("eval_bubble") (Error.new ("no value available"))
      ≠ Error.new ("Expression len should always be odd") := by
  with_unfolding_all decide

/-- C6 (amended): an even-length token list always fails with the odd-length
structural error; a parity violation (operand at odd index or operator at
even index, which is exactly `parityOk = false`, last conjunct) always makes
`eval` fail with no result; and when additionally every operand resolution
succeeds, the failure is one of the two structural parity errors. -/
theorem c6_amended_behaviour {σ : Type} (ns : EvalNS σ) (s : σ) (e : Expression) :
    (e.toks.length % 2 = 0 →
        (eval e ns s).1 = Except.error (Error.new ("Expression len should always be odd"))) ∧
    (parityOk e.toks 0 = false → ((eval e ns s).1).isOk = false) ∧
    ((∀ (s1 : σ) (v : Value), ((ns.eval_bubble s1 v).1).isOk = true) →
      parityOk e.toks 0 = false → e.toks.length % 2 = 1 →
      (eval e ns s).1 = Except.error (Error.new ("Found value at odd index")) ∨
      (eval e ns s).1 = Except.error (Error.new ("Found binaryop at even index"))) ∧
    (parityOk e.toks 0 = false ↔
      ∃ j, j < e.toks.length ∧
        ((j % 2 = 1 ∧ (e.toks.getD j (ExpressionTok.EBinaryOp EPlus)).isEValue = true) ∨
         (j % 2 = 0 ∧
           (e.toks.getD j
             (ExpressionTok.EValue (Value.EConstant (Constant.mk F64.nan)))).isEValue
             = false))) := by
  refine ⟨?_, ?_, ?_, ?_⟩
  · intro h
    simp only [eval]
    rw [if_pos (by omega)]
  · intro h
    by_cases hlen : e.toks.length % 2 = 1
    · simp only [eval]
      rw [if_neg (by omega)]
      have bad := evalToks_parity_bad ns e.toks 0 s [] [] h
      cases hev : evalToks ns e.toks 0 s [] [] with
      | mk r s1 =>
          rw [hev] at bad
          cases r with
          | error e2 => simp [Except.isOk, Except.toBool]
          | ok pr =>
              simp [Except.isOk, Except.toBool] at bad
    · simp only [eval]
      rw [if_pos (by omega)]
      simp [Except.isOk, Except.toBool]
  · intro hok hpar hlen
    simp only [eval]
    rw [if_neg (by omega)]
    have hsr := evalToks_parity_structural ns hok e.toks 0 s [] [] hpar
    cases hev : evalToks ns e.toks 0 s [] [] with
    | mk r s1 =>
        rw [hev] at hsr
        cases r with
        | error e2 =>
            rcases hsr with h | h
            · left; simpa using h
            · right; simpa using h
        | ok pr => simp at hsr
  · have := parityOk_false_iff e.toks 0
    simpa using this

theorem c6_witness :
    (eval (Expression.mk [num 1, btok EPlus]) stubNS ∅).1
      = Except.error (Error.new ("Expression len should always be odd")) ∧
    ((eval (Expression.mk [num 1, num 2, num 3]) stubNS ∅).1).isOk = false ∧
    ((eval (Expression.mk [num 1, num 2, num 3]) totalNS ()).1
        = Except.error (Error.new ("Found value at odd index")) ∨
      (eval (Expression.mk [num 1, num 2, num 3]) totalNS ()).1
        = Except.error (Error.new ("Found binaryop at even index"))) :=
  ⟨(c6_amended_behaviour stubNS ∅ (Expression.mk [num 1, btok EPlus])).1 (by decide),
   (c6_amended_behaviour stubNS ∅ (Expression.mk [num 1, num 2, num 3])).2.1 (by decide),
   (c6_amended_behaviour totalNS () (Expression.mk [num 1, num 2, num 3])).2.2.1
     (fun s1 v => by cases v <;> rfl) (by decide) (by decide)⟩

/-- C7: termination metrics of the reduction: an in-bounds collapse removes
exactly one element from each sequence (so the combined length strictly
drops by two), and both scan disciplines reach their fixpoint — after
`rtol`/`ltor` for `op` (the latter running on exactly `ops.length` fuel, one
unit per collapse) no occurrence of `op` remains and the operator sequence
has not grown. -/
theorem c7_termination :
    (∀ (vals : List F64) (ops : List BinaryOp) (i : ℕ),
        i < ops.length → vals.length = ops.length + 1 →
        (eval_op vals ops i).1.length + (eval_op vals ops i).2.length + 2
          = vals.length + ops.length) ∧
    (∀ (op : BinaryOp) (vals : List F64) (ops : List BinaryOp),
        op ∉ (rtol op vals ops).2 ∧ op ∉ (ltor op vals ops).2 ∧
        (rtol op vals ops).2.length ≤ ops.length ∧
        (ltor op vals ops).2.length ≤ ops.length) := by
  constructor
  · intro vals ops i hi hlen
    have h1 := eval_op_length_fst vals ops i (by omega)
    have h2 := eval_op_length_snd vals ops i hi
    omega
  · intro op vals ops
    exact ⟨rtol_not_mem op vals ops, ltor_not_mem op vals ops,
      (rtol_sublist op vals ops).length_le, (ltor_sublist op vals ops).length_le⟩

theorem c7_witness :
    (eval_op [F64.fin 1, F64.fin 2] [EPlus] 0).1.length
        + (eval_op [F64.fin 1, F64.fin 2] [EPlus] 0).2.length + 2
      = ([F64.fin 1, F64.fin 2] : List F64).length + ([EPlus] : List BinaryOp).length ∧
    EMul ∉ (rtol EMul [F64.fin 1, F64.fin 2] [EMul]).2 :=
  ⟨c7_termination.1 [F64.fin 1, F64.fin 2] [EPlus] 0 (by decide) (by decide),
   (c7_termination.2 EMul [F64.fin 1, F64.fin 2] [EMul]).1⟩

/-- C8: each of the six comparison operators produces only `0.0` or `1.0`,
and on finite operands produces `1.0` exactly when the comparison holds. -/
theorem c8_comparisons_boolean :
    (∀ (l r : F64),
      (binaryop_eval ELT l r = F64.fin 0 ∨ binaryop_eval ELT l r = F64.fin 1) ∧
      (binaryop_eval ELTE l r = F64.fin 0 ∨ binaryop_eval ELTE l r = F64.fin 1) ∧
      (binaryop_eval EEQ l r = F64.fin 0 ∨ binaryop_eval EEQ l r = F64.fin 1) ∧
      (binaryop_eval ENE l r = F64.fin 0 ∨ binaryop_eval ENE l r = F64.fin 1) ∧
      (binaryop_eval EGTE l r = F64.fin 0 ∨ binaryop_eval EGTE l r = F64.fin 1) ∧
      (binaryop_eval EGT l r = F64.fin 0 ∨ binaryop_eval EGT l r = F64.fin 1)) ∧
    (∀ (a b : ℚ),
      binaryop_eval ELT (F64.fin a) (F64.fin b)
        = (if a < b then F64.fin 1 else F64.fin 0) ∧
      binaryop_eval ELTE (F64.fin a) (F64.fin b)
        = (if a ≤ b then F64.fin 1 else F64.fin 0) ∧
      binaryop_eval EEQ (F64.fin a) (F64.fin b)
        = (if a = b then F64.fin 1 else F64.fin 0) ∧
      binaryop_eval ENE (F64.fin a) (F64.fin b)
        = (if a = b then F64.fin 0 else F64.fin 1) ∧
      binaryop_eval EGTE (F64.fin a) (F64.fin b)
        = (if b ≤ a then F64.fin 1 else F64.fin 0) ∧
      binaryop_eval EGT (F64.fin a) (F64.fin b)
        = (if b < a then F64.fin 1 else F64.fin 0)) := by
  have hb : ∀ (b : Bool), bool_to_f64 b = F64.fin 0 ∨ bool_to_f64 b = F64.fin 1 := by
    intro b; cases b <;> simp [bool_to_f64]
  constructor
  · intro l r
    exact ⟨hb _, hb _, hb _, hb _, hb _, hb _⟩
  · intro a b
    refine ⟨?_, ?_, ?_, ?_, ?_, ?_⟩
    · by_cases h : a < b <;> simp [binaryop_eval, f64_lt, bool_to_f64, h]
    · by_cases h : a ≤ b <;> simp [binaryop_eval, f64_le, bool_to_f64, h]
    · by_cases h : a = b <;> simp [binaryop_eval, f64_eq, bool_to_f64, h]
    · by_cases h : a = b <;> simp [binaryop_eval, f64_ne, f64_eq, bool_to_f64, h]
    · by_cases h : b ≤ a <;> simp [binaryop_eval, f64_le, bool_to_f64, h]
    · by_cases h : b < a <;> simp [binaryop_eval, f64_lt, bool_to_f64, h]

/-- C9: operands are resolved strictly left-to-right; when the first failing
resolution exists, `eval` returns exactly that error wrapped with the
`eval_bubble` context, the final namespace state is the one reached by
resolving only up to and including the failing operand (`resolveUpto`), and
operands past the first failure never touch the namespace (appending more
operands after a failure does not change `resolveUpto`). -/
theorem c9_resolution_short_circuit {σ : Type} (ns : EvalNS σ) (e : Expression) (s : σ)
    (hshape : wellShaped e.toks = true) (err : Error)
    (hfe : firstResolveError ns (operandsOf e.toks) s = some err) :
    (eval e ns s).1 = Except.error (Error.pre ("eval_bubble") err) ∧
    (eval e ns s).2 = resolveUpto ns (operandsOf e.toks) s ∧
    (∀ (extra : List Value),
        resolveUpto ns (operandsOf e.toks ++ extra) s
          = resolveUpto ns (operandsOf e.toks) s) := by
  have hodd := wellShaped_length_odd e.toks hshape
  have he := evalToks_err ns e.toks hshape 0 rfl s [] [] err hfe
  have hs := evalToks_state ns e.toks hshape 0 rfl s [] []
  refine ⟨?_, ?_, resolveUpto_stop ns (operandsOf e.toks) s err hfe⟩
  · simp only [eval]
    rw [if_neg (by omega)]
    cases hev : evalToks ns e.toks 0 s [] [] with
    | mk r s1 =>
        rw [hev] at he
        cases r with
        | error e2 => simpa using he
        | ok pr => simp at he
  · simp only [eval]
    rw [if_neg (by omega)]
    cases hev : evalToks ns e.toks 0 s [] [] with
    | mk r s1 =>
        rw [hev] at hs
        simp only at hs
        cases r with
        | error e2 => simpa using hs
        | ok pr =>
            obtain ⟨vals2, ops2⟩ := pr
            dsimp only
            split_ifs <;> simpa using hs

theorem c9_witness :
    resolveUpto stubNS (operandsOf [vr ("x"), btok EPlus, vr ("y")]) ∅ = (insert ("x") (∅ : Finset String)) ∧
    ((eval (Expression.mk [vr ("x"), btok EPlus, vr ("y")]) stubNS ∅).1
        = Except.error (Error.pre ("eval_bubble") (Error.new ("no value available"))) ∧
      (eval (Expression.mk [vr ("x"), btok EPlus, vr ("y")]) stubNS ∅).2
        = resolveUpto stubNS (operandsOf [vr ("x"), btok EPlus, vr ("y")]) ∅ ∧
      (∀ (extra : List Value),
        resolveUpto stubNS (operandsOf [vr ("x"), btok EPlus, vr ("y")] ++ extra) ∅
          = resolveUpto stubNS (operandsOf [vr ("x"), btok EPlus, vr ("y")]) ∅)) :=
  ⟨by with_unfolding_all decide,
   c9_resolution_short_circuit stubNS (Expression.mk [vr ("x"), btok EPlus, vr ("y")]) ∅
     (by decide) (Error.new ("no value available")) (by with_unfolding_all decide)⟩

/-- C10: with a NaN left operand, `||` returns NaN (IEEE `NaN != 0.0` is
true so the left operand is selected), while `&&` returns the right operand
unchanged (IEEE `NaN == 0.0` is false) — NaN does not propagate through
`&&`. -/
theorem c10_nan_through_and_or (r : F64) :
    binaryop_eval EOR F64.nan r = F64.nan ∧
    binaryop_eval EAND F64.nan r = r ∧
    f64_ne F64.nan (F64.fin 0) = true ∧
    f64_eq F64.nan (F64.fin 0) = false := by
  refine ⟨?_, ?_, rfl, rfl⟩ <;> simp [binaryop_eval, f64_ne, f64_eq]

end Fasteval2
